import Mathlib

/-!
Shallow embedding of `cnf-fuzz-horn.py`, a generator of CNF variants with a
prescribed number of Horn clauses, together with proofs about its core
algorithms: the Horn classifier (`count_horn_clauses`), the greedy assignment
builder (`generate_solution`), the Horn-count adjuster (the two in-place
flip loops of `generate_instance`) and the satisfiability repairer
(`make_satisfiable`).

Modelling conventions:
  - a literal is a nonzero `Int`; a clause is a `List Int`; a formula is a
    `List (List Int)`;
  - the Python assignment dict is modelled as an association list
    `List (Nat × Bool)`; only membership, lookup and size are ever used by the
    program, so the internal order of entries is irrelevant;
  - the two places where the program draws random booleans
    (`random.choice([True, False])` for never-encountered variables) are
    modelled by an oracle `rnd : Nat → Bool` giving the draw for each variable;
  - in-place list mutation (`clause[index] = ...`) is modelled by `List.set`;
    Python's `list.index` (which raises when the value is absent) is modelled
    by `List.indexOf`, which returns the length when the value is absent, in
    which case the subsequent `List.set` is a no-op — the executions the
    theorems talk about never reach that case;
  - dictionary access `solution[abs(lit)]` (a KeyError when the key is
    absent) is totalised with a `false` default; the claims all restrict to
    well-formed input, where every accessed key is present.
-/

namespace Horn

/-! ## Definitions (embedded from `cnf-fuzz-horn.py`) -/

/-- `is_clause_satisfied(clause, solution)`: a clause is satisfied iff some
literal's polarity matches the assignment of its variable
(`any(solution[abs(lit)] == (lit > 0) for lit in clause)`). -/
def is_clause_satisfied (clause : List Int) (solution : Nat → Bool) : Bool :=
  clause.any (fun lit => solution lit.natAbs == decide (0 < lit))

/-- `count_horn_clauses(clauses)`: the sum, over all clauses, of the indicator
of "at most one positive literal"
(`sum(1 for clause in clauses if len([lit for lit in clause if lit > 0]) <= 1)`). -/
def count_horn_clauses (clauses : List (List Int)) : Nat :=
  (clauses.map
    (fun clause => if (clause.filter (fun lit => 0 < lit)).length ≤ 1 then 1 else 0)).sum

/-- `step = max(num_clauses // count, 1)` from `create_horn_instances`
(Python `//` on the non-negative header values is `Nat` division). -/
def step (num_clauses count : Nat) : Nat :=
  max (num_clauses / count) 1

/-- `target_horn_clauses = i * step` from `generate_instance`. -/
def target_horn_clauses (i num_clauses count : Nat) : Nat :=
  i * step num_clauses count

/-- The Horn indicator of a single clause, as a `Bool` predicate. -/
def is_horn (clause : List Int) : Bool :=
  (clause.filter (fun lit => 0 < lit)).length ≤ 1

/-- The flip statement `clause[clause.index(lit_to_flip)] = -lit_to_flip`
(increase loop) resp. `clause[clause.index(lit_to_flip)] = abs(lit_to_flip)`
(decrease loop, where the literal is negative so `abs` is again negation),
folded over the list of literal values to flip.  `List.indexOf` finds the
first occurrence of the value in the current (already partly flipped)
clause, exactly as Python's `list.index`. -/
def flip_firsts (clause : List Int) (vals : List Int) : List Int :=
  vals.foldl (fun c v => c.set (c.indexOf v) (-v)) clause

/-- `1 < #positive literals`: the eligibility test of the increase loop. -/
def non_horn (clause : List Int) : Bool :=
  1 < (clause.filter (fun lit => 0 < lit)).length

/-- The increase loop of `generate_instance` (lines 127-135): while the
running count is below the target, convert each clause with more than one
positive literal by flipping all its positive literals but the last
(`positive_literals[:-1]`), incrementing the running count.  Returns the
mutated clause list together with the final running count. -/
def increase_pass (target : Nat) : List (List Int) → Nat → List (List Int) × Nat
  | [], h => ([], h)
  | clause :: rest, h =>
    if target ≤ h then (clause :: rest, h)
    else
      let positive_literals := clause.filter (fun lit => 0 < lit)
      if 1 < positive_literals.length then
        let clause' := flip_firsts clause positive_literals.dropLast
        let r := increase_pass target rest (h + 1)
        (clause' :: r.1, r.2)
      else
        let r := increase_pass target rest h
        (clause :: r.1, r.2)

/-- The decrease loop of `generate_instance` (lines 137-146): while the
running count is above the target, for each clause that is Horn flip the
first up to two negative literals (`neg_literals[:2]`) to positive, and
decrement the running count exactly when the flipped clause has at least two
positive literals. -/
def decrease_pass (target : Nat) : List (List Int) → Nat → List (List Int) × Nat
  | [], h => ([], h)
  | clause :: rest, h =>
    if h ≤ target then (clause :: rest, h)
    else
      if (clause.filter (fun lit => 0 < lit)).length ≤ 1 then
        let neg_literals := clause.filter (fun lit => lit < 0)
        let clause' := flip_firsts clause (neg_literals.take 2)
        let h' := if 2 ≤ (clause'.filter (fun lit => 0 < lit)).length then h - 1 else h
        let r := decrease_pass target rest h'
        (clause' :: r.1, r.2)
      else
        let r := decrease_pass target rest h
        (clause :: r.1, r.2)

/-- The Horn-count adjustment stage of `generate_instance`: compare the
current Horn count with the target and run the corresponding loop. -/
def adjust_horn_count (target : Nat) (clauses : List (List Int)) : List (List Int) :=
  let horn_count := count_horn_clauses clauses
  if horn_count < target then (increase_pass target clauses horn_count).1
  else if target < horn_count then (decrease_pass target clauses horn_count).1
  else clauses

/-- Positional characterisation of the increase-loop flip: negate exactly
those positive literals that are followed by a later positive literal, i.e.
every positive literal except the last one in clause order. -/
def hornify : List Int → List Int
  | [] => []
  | lit :: rest =>
    if 0 < lit ∧ rest.filter (fun l => 0 < l) ≠ [] then (-lit) :: hornify rest
    else lit :: hornify rest

/-- Positional characterisation of the decrease-loop flip: negate the first
`k` negative literals in clause order (the loop uses `k = 2`). -/
def posify : List Int → Nat → List Int
  | [], _ => []
  | lit :: rest, 0 => lit :: rest
  | lit :: rest, k + 1 =>
    if lit < 0 then (-lit) :: posify rest k else lit :: posify rest (k + 1)

/-- The decrease-loop eligibility predicate of the claims: a Horn clause
whose flip raises its positive-literal count to at least 2. -/
def dec_eligible (clause : List Int) : Bool :=
  ((clause.filter (fun lit => 0 < lit)).length ≤ 1 : Bool) &&
    (2 ≤ ((posify clause 2).filter (fun lit => 0 < lit)).length : Bool)

/-- The inner literal loop of `generate_solution` (lines 37-43): assign each
not-yet-assigned variable the polarity of this literal, and break out of the
scan as soon as the assignment holds `num_vars` entries.  The Python dict is
an association list; only membership, lookup and size are used, so entries
are prepended. -/
def gs_clause (num_vars : Nat) : List Int → List (Nat × Bool) → List (Nat × Bool)
  | [], solution => solution
  | lit :: rest, solution =>
    if (List.lookup lit.natAbs solution).isSome then gs_clause num_vars rest solution
    else
      let solution' := (lit.natAbs, decide (0 < lit)) :: solution
      if solution'.length = num_vars then solution'
      else gs_clause num_vars rest solution'

/-- The outer clause loop of `generate_solution` (lines 37-45), with its
break as soon as the assignment holds `num_vars` entries. -/
def gs_clauses (num_vars : Nat) : List (List Int) → List (Nat × Bool) → List (Nat × Bool)
  | [], solution => solution
  | clause :: rest, solution =>
    let solution' := gs_clause num_vars clause solution
    if solution'.length = num_vars then solution'
    else gs_clauses num_vars rest solution'

/-- The random-fallback loop of `generate_solution` (lines 48-50): each
variable of `1..num_vars` still unset gets the oracle's boolean
(`random.choice([True, False])`). -/
def fill_vars (rnd : Nat → Bool) : List Nat → List (Nat × Bool) → List (Nat × Bool)
  | [], solution => solution
  | var :: rest, solution =>
    if (List.lookup var solution).isSome then fill_vars rnd rest solution
    else fill_vars rnd rest ((var, rnd var) :: solution)

/-- `generate_solution(clauses, num_vars)`: first-occurrence scan, then the
random fallback over `range(1, num_vars + 1)`. -/
def generate_solution (rnd : Nat → Bool) (clauses : List (List Int)) (num_vars : Nat) :
    List (Nat × Bool) :=
  fill_vars rnd (List.range' 1 num_vars) (gs_clauses num_vars clauses [])

/-- Break-free form of the first-occurrence scan, used to state what the
scan computes; under well-formed input it agrees with `gs_clauses`. -/
def scan_first : List Int → List (Nat × Bool) → List (Nat × Bool)
  | [], solution => solution
  | lit :: rest, solution =>
    if (List.lookup lit.natAbs solution).isSome then scan_first rest solution
    else scan_first rest ((lit.natAbs, decide (0 < lit)) :: solution)

/-- The keys of the assignment are distinct and within `1..num_vars`. -/
def sol_inv (num_vars : Nat) (solution : List (Nat × Bool)) : Prop :=
  (solution.map Prod.fst).Nodup ∧
    ∀ k ∈ solution.map Prod.fst, 1 ≤ k ∧ k ≤ num_vars

/-- Every variable of `1..num_vars` is assigned. -/
def sol_full (num_vars : Nat) (solution : List (Nat × Bool)) : Prop :=
  ∀ v : Nat, 1 ≤ v → v ≤ num_vars → (List.lookup v solution).isSome

/-- `positive_literals = [(i, lit) for i, lit in enumerate(clause) if lit > 0]`
(line 64), a snapshot of the clause taken before any flip. -/
def positive_literals (clause : List Int) : List (Nat × Int) :=
  clause.enum.filter (fun p => 0 < p.2)

/-- `negative_literals = [(i, lit) for i, lit in enumerate(clause) if lit < 0]`
(line 65), a snapshot of the clause taken before any flip. -/
def negative_literals (clause : List Int) : List (Nat × Int) :=
  clause.enum.filter (fun p => p.2 < 0)

/-- The satisfaction-guarded flip loops of `make_satisfiable` (lines 69-71,
78-80, 81-83, 94-96 and 104-106): for each snapshot pair `(index, lit)`, if
the clause is still unsatisfied and the assignment of the literal's variable
equals `want`, overwrite position `index` with the literal's negation
(`-abs(lit)` for a positive literal under `want = false`, `abs(lit)` for a
negative literal under `want = true`; both equal `-lit`). -/
def flip_pass (solution : Nat → Bool) (want : Bool) (pairs : List (Nat × Int))
    (clause : List Int) : List Int :=
  pairs.foldl
    (fun c p =>
      if !(is_clause_satisfied c solution) && (solution p.2.natAbs == want)
      then c.set p.1 (-p.2) else c)
    clause

/-- The unguarded negative-literal flip loops of the `current > target`
branches (lines 91-93 and 101-103): every negative literal whose variable is
assigned true is flipped to positive, with no satisfaction check. -/
def flip_neg_all (solution : Nat → Bool) (pairs : List (Nat × Int))
    (clause : List Int) : List Int :=
  pairs.foldl
    (fun c p => if solution p.2.natAbs == true then c.set p.1 (-p.2) else c)
    clause

/-- The body of `make_satisfiable`'s clause loop (lines 60-109) for one
clause: the four-way policy on (running Horn count vs target, more than one
positive literal or not), returning the mutated clause and the updated
running Horn count.  The Python `continue` for an already-satisfied clause
is the first test; the inner re-tests of lines 75, 89 and 100 are kept even
though the clause cannot have changed since line 61. -/
def repair_clause (solution : Nat → Bool) (target_horn_count : Int)
    (current_horn_count : Int) (clause : List Int) : List Int × Int :=
  if is_clause_satisfied clause solution then (clause, current_horn_count)
  else
    let pos := positive_literals clause
    let neg := negative_literals clause
    if current_horn_count ≤ target_horn_count then
      if 1 < pos.length then
        let c1 := flip_pass solution false pos clause
        if is_clause_satisfied c1 solution
            && ((c1.filter (fun lit => 0 < lit)).length ≤ 1 : Bool)
        then (c1, current_horn_count + 1) else (c1, current_horn_count)
      else
        if is_clause_satisfied clause solution then (clause, current_horn_count)
        else
          let c1 := flip_pass solution false pos clause
          let c2 := flip_pass solution true neg c1
          if is_clause_satisfied c2 solution
              && (1 < (c2.filter (fun lit => 0 < lit)).length : Bool)
          then (c2, current_horn_count - 1) else (c2, current_horn_count)
    else
      if 1 < pos.length then
        if is_clause_satisfied clause solution then (clause, current_horn_count)
        else
          let c1 := flip_neg_all solution neg clause
          let c2 := flip_pass solution false pos c1
          if is_clause_satisfied c2 solution
              && ((c2.filter (fun lit => 0 < lit)).length ≤ 1 : Bool)
          then (c2, current_horn_count + 1) else (c2, current_horn_count)
      else
        if !(is_clause_satisfied clause solution) then
          let c1 := flip_neg_all solution neg clause
          let c2 := flip_pass solution false pos c1
          if is_clause_satisfied c2 solution
              && (1 < (c2.filter (fun lit => 0 < lit)).length : Bool)
          then (c2, current_horn_count - 1) else (c2, current_horn_count)
        else (clause, current_horn_count)

/-- The clause loop of `make_satisfiable`: the in-place mutation of the
clause list is rebuilt clause by clause while the running Horn count is
threaded through. -/
def repair_loop (solution : Nat → Bool) (target_horn_count : Int) :
    List (List Int) → Int → List (List Int) × Int
  | [], current => ([], current)
  | clause :: rest, current =>
    let r := repair_clause solution target_horn_count current clause
    let rs := repair_loop solution target_horn_count rest r.2
    (r.1 :: rs.1, rs.2)

/-- The assignment `make_satisfiable` builds internally (line 56), totalised
to a function with a `false` default for keys outside its domain. -/
def internal_solution (rnd : Nat → Bool) (clauses : List (List Int))
    (num_vars : Nat) : Nat → Bool :=
  fun v => (List.lookup v (generate_solution rnd clauses num_vars)).getD false

/-- `make_satisfiable(clauses, num_vars, target_horn_count)`: build the
internal assignment, take the current Horn count, then run the repair loop
over all clauses. -/
def make_satisfiable (rnd : Nat → Bool) (clauses : List (List Int))
    (num_vars : Nat) (target_horn_count : Int) : List (List Int) :=
  (repair_loop (internal_solution rnd clauses num_vars) target_horn_count
    clauses (count_horn_clauses clauses : Int)).1

/-- Modelled from the spec's words for C4 (§4.4, the `current > target`
rows, and the claim's "flips literals only until the clause becomes
satisfied ... performs no further flips on a clause once it is already
satisfied"): the clause shape of the `> target` branches with BOTH passes
satisfaction-guarded.  The source guards only the positive-literal pass. -/
def repair_gt_spec (solution : Nat → Bool) (clause : List Int) : List Int :=
  if is_clause_satisfied clause solution then clause
  else
    flip_pass solution false (positive_literals clause)
      (flip_pass solution true (negative_literals clause) clause)

/-- The all-true assignment used by the concrete C4 counterexample. -/
def sol_all_true : Nat → Bool := fun _ => true

/-- The repairer's per-clause frame relation: positions are preserved, and a
position either keeps its literal or holds its negation, agreeing with the
assignment. -/
def flip_rel (solution : Nat → Bool) (orig c : List Int) : Prop :=
  c.length = orig.length ∧
  ∀ j : Nat, c.getD j 0 = orig.getD j 0 ∨
    (c.getD j 0 = -(orig.getD j 0) ∧
      solution (orig.getD j 0).natAbs = decide (0 < c.getD j 0))

/-! ## Theorems -/

theorem count_horn_clauses_eq_countP_aux (clauses : List (List Int)) :
    count_horn_clauses clauses = clauses.countP is_horn := by
  induction clauses with
  | nil => rfl
  | cons c cs ih =>
    simp only [count_horn_clauses, List.map_cons, List.sum_cons, List.countP_cons] at *
    rw [ih]
    by_cases h : (c.filter (fun lit => 0 < lit)).length ≤ 1
    · simp [is_horn, h, Nat.add_comm]
    · simp [is_horn, h]

/-- C8: `count_horn_clauses` returns exactly the number of clauses whose
count of positive literals is at most 1 (stated via `List.countP`); being a
Lean function of its argument it is pure by construction. -/
theorem count_horn_clauses_correct (clauses : List (List Int)) :
    count_horn_clauses clauses
      = clauses.countP (fun clause => (clause.filter (fun lit => 0 < lit)).length ≤ 1) :=
  count_horn_clauses_eq_countP_aux clauses

theorem is_horn_of_perm {a b : List Int} (h : a.Perm b) : is_horn a = is_horn b := by
  simp only [is_horn]
  rw [(h.filter (fun lit => decide (0 < lit))).length_eq]

theorem countP_horn_of_forall₂ {cls₁ cls₂ : List (List Int)}
    (h : List.Forall₂ (fun a b => a.Perm b) cls₁ cls₂) :
    cls₁.countP is_horn = cls₂.countP is_horn := by
  induction h with
  | nil => rfl
  | cons hab _ ih =>
    simp only [List.countP_cons, ih, is_horn_of_perm hab]

/-- C9: the Horn-clause count is invariant under permuting the literals inside
each clause (`Forall₂ Perm`) and under reordering the clauses themselves
(an outer `Perm`). -/
theorem count_horn_clauses_perm_invariant (cls₁ cls₂ cls₃ : List (List Int))
    (h₁ : List.Forall₂ (fun a b => a.Perm b) cls₁ cls₂) (h₂ : cls₂.Perm cls₃) :
    count_horn_clauses cls₁ = count_horn_clauses cls₃ := by
  rw [count_horn_clauses_eq_countP_aux, count_horn_clauses_eq_countP_aux,
    countP_horn_of_forall₂ h₁, h₂.countP_eq]

/-- Witness for C9 at a concrete input: permute literals of the first clause
and then swap the two clauses. -/
theorem count_horn_clauses_perm_invariant_witness :
    count_horn_clauses [[1, -2], [3]] = count_horn_clauses [[3], [-2, 1]] :=
  count_horn_clauses_perm_invariant [[1, -2], [3]] [[-2, 1], [3]] [[3], [-2, 1]]
    (by constructor
        · exact List.Perm.swap (-2) 1 []
        · constructor
          · exact List.Perm.refl [3]
          · exact List.Forall₂.nil)
    (List.Perm.swap [3] [-2, 1] [])

/-- C10: the per-variant target arithmetic of `create_horn_instances` /
`generate_instance`: the step is always at least 1 (so variant targets are
well-defined with no division-by-zero failure), for `count = 1` the step is
`max(num_clauses, 1)`, the variant-0 target is 0, and every variant `i` targets
`i * step`. -/
theorem step_target_arithmetic (num_clauses count : Nat) (hc : 0 < count) :
    1 ≤ step num_clauses count ∧
    step num_clauses 1 = max num_clauses 1 ∧
    target_horn_clauses 0 num_clauses count = 0 ∧
    ∀ i, i < count → target_horn_clauses i num_clauses count = i * step num_clauses count := by
  refine ⟨Nat.le_max_right _ 1, ?_, ?_, fun i _ => rfl⟩
  · simp [step]
  · simp [target_horn_clauses]

/-- Witness for C10 with `count = 1` (the boundary case the claim highlights). -/
theorem step_target_arithmetic_witness :
    1 ≤ step 2 1 ∧ step 2 1 = max 2 1 ∧ target_horn_clauses 0 2 1 = 0 ∧
    ∀ i, i < 1 → target_horn_clauses i 2 1 = i * step 2 1 :=
  step_target_arithmetic 2 1 (by decide)

theorem flip_firsts_nil (clause : List Int) : flip_firsts clause [] = clause := rfl

theorem flip_firsts_cons (clause : List Int) (v : Int) (vs : List Int) :
    flip_firsts clause (v :: vs)
      = flip_firsts (clause.set (clause.indexOf v) (-v)) vs := rfl

/-- A head the flip values never match is carried along untouched. -/
theorem flip_firsts_cons_of_ne (b : Int) (r vals : List Int)
    (hb : ∀ v ∈ vals, b ≠ v) :
    flip_firsts (b :: r) vals = b :: flip_firsts r vals := by
  induction vals generalizing r with
  | nil => rfl
  | cons v vs ih =>
    rw [flip_firsts_cons, flip_firsts_cons]
    have hbv : (b == v) = false := by
      exact beq_eq_false_iff_ne.mpr (hb v (List.mem_cons_self v vs))
    rw [List.indexOf_cons, hbv]
    simp only [cond_false]
    show flip_firsts (b :: r.set (r.indexOf v) (-v)) vs = _
    exact ih _ (fun w hw => hb w (List.mem_cons_of_mem v hw))

theorem hornify_of_no_pos (c : List Int)
    (h : c.filter (fun l => 0 < l) = []) : hornify c = c := by
  induction c with
  | nil => rfl
  | cons a r ih =>
    rw [List.filter_cons] at h
    by_cases ha : 0 < a
    · simp [ha] at h
    · simp only [decide_eq_true_eq, ha, if_false] at h
      rw [hornify, if_neg (by simp [ha]), ih h]

/-- The increase-loop flip (`positive_literals[:-1]` flipped via
`clause.index`) negates exactly the positive literals before the last
positive literal: the first-occurrence index always lands on the next
not-yet-flipped positive position. -/
theorem flip_firsts_dropLast_eq_hornify (c : List Int) :
    flip_firsts c (c.filter (fun l => 0 < l)).dropLast = hornify c := by
  induction c with
  | nil => rfl
  | cons a r ih =>
    by_cases ha : 0 < a
    · rw [List.filter_cons_of_pos (by simpa using ha)]
      by_cases hr : r.filter (fun l => 0 < l) = []
      · rw [hr]
        show flip_firsts (a :: r) [] = hornify (a :: r)
        rw [flip_firsts_nil, hornify, if_neg (by simp [hr]), hornify_of_no_pos r hr]
      · rw [List.dropLast_cons_of_ne_nil hr, flip_firsts_cons, List.indexOf_cons,
          beq_self_eq_true, cond_true]
        show flip_firsts ((-a) :: r) (r.filter (fun l => 0 < l)).dropLast = _
        rw [flip_firsts_cons_of_ne _ _ _ (fun v hv => by
          have hv' : v ∈ r.filter (fun l => 0 < l) :=
            (List.dropLast_sublist _).subset hv
          have : 0 < v := by simpa using List.of_mem_filter hv'
          omega), ih, hornify, if_pos ⟨ha, hr⟩]
    · rw [List.filter_cons_of_neg (by simpa using ha),
        flip_firsts_cons_of_ne _ _ _ (fun v hv => by
          have hv' : v ∈ r.filter (fun l => 0 < l) :=
            (List.dropLast_sublist _).subset hv
          have : 0 < v := by simpa using List.of_mem_filter hv'
          omega), ih, hornify, if_neg (by simp [ha])]

theorem posify_zero (c : List Int) : posify c 0 = c := by
  cases c <;> rfl

theorem posify_cons_of_nonneg (a : Int) (r : List Int) (k : Nat) (ha : ¬a < 0) :
    posify (a :: r) k = a :: posify r k := by
  cases k with
  | zero => rw [posify_zero, posify_zero]
  | succ k => rw [posify, if_neg ha]

/-- The decrease-loop flip (`neg_literals[:2]` flipped via `clause.index`)
negates exactly the first up-to-`k` negative literals in clause order. -/
theorem flip_firsts_take_eq_posify (c : List Int) (k : Nat) :
    flip_firsts c ((c.filter (fun l => l < 0)).take k) = posify c k := by
  induction c generalizing k with
  | nil => cases k <;> rfl
  | cons a r ih =>
    by_cases ha : a < 0
    · rw [List.filter_cons_of_pos (by simpa using ha)]
      cases k with
      | zero =>
        show flip_firsts (a :: r) [] = posify (a :: r) 0
        rw [flip_firsts_nil, posify_zero]
      | succ k =>
        rw [List.take_succ_cons, flip_firsts_cons, List.indexOf_cons,
          beq_self_eq_true, cond_true]
        show flip_firsts ((-a) :: r) ((r.filter (fun l => l < 0)).take k) = _
        rw [flip_firsts_cons_of_ne _ _ _ (fun v hv => by
          have hv' : v ∈ r.filter (fun l => l < 0) := (List.take_subset _ _) hv
          have : v < 0 := by simpa using List.of_mem_filter hv'
          omega), ih, posify, if_pos ha]
    · rw [List.filter_cons_of_neg (by simpa using ha),
        flip_firsts_cons_of_ne _ _ _ (fun v hv => by
          have hv' : v ∈ r.filter (fun l => l < 0) := (List.take_subset _ _) hv
          have : v < 0 := by simpa using List.of_mem_filter hv'
          omega), ih, posify_cons_of_nonneg _ _ _ ha]

theorem count_horn_clauses_cons (c : List Int) (cs : List (List Int)) :
    count_horn_clauses (c :: cs)
      = (if (c.filter (fun lit => 0 < lit)).length ≤ 1 then 1 else 0)
        + count_horn_clauses cs := rfl

/-- After `hornify` the positive literals that remain are exactly the last
positive literal of the original clause (none if there was none). -/
theorem filter_pos_hornify (c : List Int) :
    (hornify c).filter (fun l => 0 < l)
      = ((c.filter (fun l => 0 < l)).getLast?).toList := by
  induction c with
  | nil => rfl
  | cons a r ih =>
    by_cases ha : 0 < a
    · rw [List.filter_cons_of_pos (by simpa using ha)]
      by_cases hr : r.filter (fun l => 0 < l) = []
      · rw [hornify, if_neg (by simp [hr]),
          List.filter_cons_of_pos (by simpa using ha), ih, hr]
        rfl
      · obtain ⟨b, t, hbt⟩ := List.exists_cons_of_ne_nil hr
        rw [hornify, if_pos ⟨ha, hr⟩,
          List.filter_cons_of_neg (by simp; omega), ih, hbt,
          List.getLast?_cons_cons]
    · rw [List.filter_cons_of_neg (by simpa using ha), hornify,
        if_neg (by simp [ha]), List.filter_cons_of_neg (by simpa using ha), ih]

theorem hornify_pos_length (c : List Int)
    (h : c.filter (fun l => 0 < l) ≠ []) :
    ((hornify c).filter (fun l => 0 < l)).length = 1 := by
  rw [filter_pos_hornify]
  obtain ⟨x, hx⟩ := Option.isSome_iff_exists.mp (List.getLast?_isSome.mpr h)
  rw [hx]
  rfl

theorem increase_pass_of_le (target : Nat) (cls : List (List Int)) (h : Nat)
    (hle : target ≤ h) : increase_pass target cls h = (cls, h) := by
  cases cls with
  | nil => rfl
  | cons c cs => rw [increase_pass, if_pos hle]

/-- The running counter after the increase loop: it rises by one for each
non-Horn clause converted and stops at the target. -/
theorem increase_pass_tracker (target : Nat) (cls : List (List Int)) :
    ∀ h : Nat, h < target →
      (increase_pass target cls h).2 = min target (h + cls.countP non_horn) := by
  induction cls with
  | nil =>
    intro h hh
    simp only [increase_pass, List.countP_nil]
    omega
  | cons c cs ih =>
    intro h hh
    rw [increase_pass, if_neg (Nat.not_le.mpr hh), List.countP_cons]
    by_cases hc : 1 < (c.filter (fun lit => 0 < lit)).length
    · rw [if_pos hc, if_pos (by simp [non_horn, hc])]
      by_cases hh' : h + 1 < target
      · rw [ih (h + 1) hh']
        omega
      · have ht : target = h + 1 := by omega
        rw [increase_pass_of_le target cs (h + 1) (by omega)]
        simp only
        omega
    · rw [if_neg hc, if_neg (by simp [non_horn, hc])]
      rw [ih h hh]
      omega

/-- The Horn count of the clause list moves in lockstep with the running
counter during the increase loop. -/
theorem increase_pass_count (target : Nat) (cls : List (List Int)) :
    ∀ h : Nat,
      count_horn_clauses (increase_pass target cls h).1 + h
        = count_horn_clauses cls + (increase_pass target cls h).2 := by
  induction cls with
  | nil => intro h; rfl
  | cons c cs ih =>
    intro h
    by_cases hle : target ≤ h
    · rw [increase_pass_of_le target _ h hle]
    · rw [increase_pass, if_neg hle]
      by_cases hc : 1 < (c.filter (fun lit => 0 < lit)).length
      · rw [if_pos hc]
        simp only
        rw [count_horn_clauses_cons, count_horn_clauses_cons,
          flip_firsts_dropLast_eq_hornify,
          if_pos (le_of_eq (hornify_pos_length c
            (by intro hnil; rw [hnil] at hc; simp at hc))),
          if_neg (by omega)]
        have := ih (h + 1)
        omega
      · rw [if_neg hc]
        simp only
        rw [count_horn_clauses_cons, count_horn_clauses_cons]
        have := ih h
        omega

/-- Shape of the increase loop's output: each clause is either untouched or
was a non-Horn clause replaced by its `hornify` flip, which keeps exactly
one positive literal — the last positive literal of the original clause. -/
theorem increase_pass_shape (target : Nat) (cls : List (List Int)) :
    ∀ h : Nat,
      List.Forall₂ (fun orig new => new = orig ∨
          (1 < (orig.filter (fun lit => 0 < lit)).length ∧ new = hornify orig ∧
            (new.filter (fun lit => 0 < lit)).length = 1 ∧
            new.filter (fun lit => 0 < lit)
              = ((orig.filter (fun lit => 0 < lit)).getLast?).toList))
        cls (increase_pass target cls h).1 := by
  induction cls with
  | nil => intro h; exact List.Forall₂.nil
  | cons c cs ih =>
    intro h
    by_cases hle : target ≤ h
    · rw [increase_pass_of_le target _ h hle]
      exact List.forall₂_same.mpr (fun x _ => Or.inl rfl)
    · rw [increase_pass, if_neg hle]
      by_cases hc : 1 < (c.filter (fun lit => 0 < lit)).length
      · rw [if_pos hc]
        refine List.Forall₂.cons (Or.inr ⟨hc, ?_, ?_, ?_⟩) (ih (h + 1))
        · exact flip_firsts_dropLast_eq_hornify c
        · rw [flip_firsts_dropLast_eq_hornify]
          exact hornify_pos_length c (by intro hnil; rw [hnil] at hc; simp at hc)
        · rw [flip_firsts_dropLast_eq_hornify]
          exact filter_pos_hornify c
      · rw [if_neg hc]
        exact List.Forall₂.cons (Or.inl rfl) (ih h)

/-- C2: for a formula whose Horn count `c` is below the target `t`, the
increase branch of the adjuster leaves a clause list whose Horn count is
`min t (c + e)`, where `e` counts the non-Horn clauses; every clause is
either untouched or a non-Horn clause whose positive literals other than the
last (in clause order) were all flipped negative, leaving exactly one
positive literal. -/
theorem adjust_increase_postcondition (clauses : List (List Int)) (target : Nat)
    (hlt : count_horn_clauses clauses < target) :
    count_horn_clauses (adjust_horn_count target clauses)
      = min target (count_horn_clauses clauses + clauses.countP non_horn) ∧
    List.Forall₂ (fun orig new => new = orig ∨
        (1 < (orig.filter (fun lit => 0 < lit)).length ∧ new = hornify orig ∧
          (new.filter (fun lit => 0 < lit)).length = 1 ∧
          new.filter (fun lit => 0 < lit)
            = ((orig.filter (fun lit => 0 < lit)).getLast?).toList))
      clauses (adjust_horn_count target clauses) := by
  have hadj : adjust_horn_count target clauses
      = (increase_pass target clauses (count_horn_clauses clauses)).1 := by
    simp only [adjust_horn_count]
    rw [if_pos hlt]
  constructor
  · rw [hadj]
    have h1 := increase_pass_count target clauses (count_horn_clauses clauses)
    have h2 := increase_pass_tracker target clauses (count_horn_clauses clauses) hlt
    omega
  · rw [hadj]
    exact increase_pass_shape target clauses (count_horn_clauses clauses)

/-- Witness for C2: `[[1, 2]]` with target 1 — the single non-Horn clause is
converted by flipping its first positive literal. -/
theorem adjust_increase_postcondition_witness :
    count_horn_clauses (adjust_horn_count 1 [[1, 2]])
      = min 1 (count_horn_clauses [[1, 2]] + List.countP non_horn [[1, 2]]) ∧
    List.Forall₂ (fun orig new => new = orig ∨
        (1 < (orig.filter (fun lit => 0 < lit)).length ∧ new = hornify orig ∧
          (new.filter (fun lit => 0 < lit)).length = 1 ∧
          new.filter (fun lit => 0 < lit)
            = ((orig.filter (fun lit => 0 < lit)).getLast?).toList))
      [[1, 2]] (adjust_horn_count 1 [[1, 2]]) :=
  adjust_increase_postcondition [[1, 2]] 1 (by decide)

theorem decrease_pass_of_le (target : Nat) (cls : List (List Int)) (h : Nat)
    (hle : h ≤ target) : decrease_pass target cls h = (cls, h) := by
  cases cls with
  | nil => rfl
  | cons c cs => rw [decrease_pass, if_pos hle]

/-- The running counter after the decrease loop: it falls by one for each
eligible Horn clause (one whose flip reaches two positive literals) and
stops at the target. -/
theorem decrease_pass_tracker (target : Nat) (cls : List (List Int)) :
    ∀ h : Nat, target < h →
      (decrease_pass target cls h).2 = max target (h - cls.countP dec_eligible) := by
  induction cls with
  | nil =>
    intro h hh
    simp only [decrease_pass, List.countP_nil]
    omega
  | cons c cs ih =>
    intro h hh
    rw [decrease_pass, if_neg (Nat.not_le.mpr hh), List.countP_cons]
    by_cases hc : (c.filter (fun lit => 0 < lit)).length ≤ 1
    · rw [if_pos hc]
      simp only [flip_firsts_take_eq_posify]
      by_cases he : 2 ≤ ((posify c 2).filter (fun lit => 0 < lit)).length
      · rw [if_pos he, if_pos (by simp [dec_eligible, hc, he])]
        by_cases hh' : target < h - 1
        · rw [ih (h - 1) hh']
          omega
        · rw [decrease_pass_of_le target cs (h - 1) (by omega)]
          simp only
          omega
      · rw [if_neg he, if_neg (by simp [dec_eligible, hc, he])]
        rw [ih h hh]
        omega
    · rw [if_neg hc, if_neg (by simp [dec_eligible, hc])]
      rw [ih h hh]
      omega

/-- The Horn count of the clause list moves in lockstep with the running
counter during the decrease loop. -/
theorem decrease_pass_count (target : Nat) (cls : List (List Int)) :
    ∀ h : Nat, target < h →
      count_horn_clauses (decrease_pass target cls h).1 + h
        = count_horn_clauses cls + (decrease_pass target cls h).2 := by
  induction cls with
  | nil => intro h _; rfl
  | cons c cs ih =>
    intro h hh
    rw [decrease_pass, if_neg (Nat.not_le.mpr hh)]
    by_cases hc : (c.filter (fun lit => 0 < lit)).length ≤ 1
    · rw [if_pos hc]
      simp only [flip_firsts_take_eq_posify]
      by_cases he : 2 ≤ ((posify c 2).filter (fun lit => 0 < lit)).length
      · rw [if_pos he]
        rw [count_horn_clauses_cons, count_horn_clauses_cons,
          if_neg (by omega), if_pos hc]
        by_cases hh' : target < h - 1
        · have := ih (h - 1) hh'
          omega
        · rw [decrease_pass_of_le target cs (h - 1) (by omega)]
          simp only
          omega
      · rw [if_neg he]
        rw [count_horn_clauses_cons, count_horn_clauses_cons,
          if_pos (by omega), if_pos hc]
        by_cases hh' : target < h
        · have := ih h hh'
          omega
        · omega
    · rw [if_neg hc]
      simp only
      rw [count_horn_clauses_cons, count_horn_clauses_cons]
      have := ih h hh
      omega

/-- Shape of the decrease loop's output: each clause is either untouched or
was a Horn clause whose first up-to-two negative literals (in clause order)
were flipped to positive. -/
theorem decrease_pass_shape (target : Nat) (cls : List (List Int)) :
    ∀ h : Nat,
      List.Forall₂ (fun orig new => new = orig ∨
          ((orig.filter (fun lit => 0 < lit)).length ≤ 1 ∧ new = posify orig 2))
        cls (decrease_pass target cls h).1 := by
  induction cls with
  | nil => intro h; exact List.Forall₂.nil
  | cons c cs ih =>
    intro h
    by_cases hle : h ≤ target
    · rw [decrease_pass_of_le target _ h hle]
      exact List.forall₂_same.mpr (fun x _ => Or.inl rfl)
    · rw [decrease_pass, if_neg hle]
      by_cases hc : (c.filter (fun lit => 0 < lit)).length ≤ 1
      · rw [if_pos hc]
        exact List.Forall₂.cons
          (Or.inr ⟨hc, flip_firsts_take_eq_posify c 2⟩) (ih _)
      · rw [if_neg hc]
        exact List.Forall₂.cons (Or.inl rfl) (ih h)

/-- C3: for a formula whose Horn count `c` is above the target `t`, the
decrease branch of the adjuster leaves a clause list whose Horn count is
`max t (c - e)`, where `e` counts the Horn clauses whose flip raises their
positive-literal count to at least 2; every clause is either untouched or a
Horn clause whose first up-to-two negative literals were flipped to
positive. -/
theorem adjust_decrease_postcondition (clauses : List (List Int)) (target : Nat)
    (hgt : target < count_horn_clauses clauses) :
    count_horn_clauses (adjust_horn_count target clauses)
      = max target (count_horn_clauses clauses - clauses.countP dec_eligible) ∧
    List.Forall₂ (fun orig new => new = orig ∨
        ((orig.filter (fun lit => 0 < lit)).length ≤ 1 ∧ new = posify orig 2))
      clauses (adjust_horn_count target clauses) := by
  have hadj : adjust_horn_count target clauses
      = (decrease_pass target clauses (count_horn_clauses clauses)).1 := by
    simp only [adjust_horn_count]
    rw [if_neg (by omega), if_pos hgt]
  constructor
  · rw [hadj]
    have h1 := decrease_pass_count target clauses (count_horn_clauses clauses) hgt
    have h2 := decrease_pass_tracker target clauses (count_horn_clauses clauses) hgt
    omega
  · rw [hadj]
    exact decrease_pass_shape target clauses (count_horn_clauses clauses)

/-- Witness for C3: `[[-1, -2], [5]]` with target 0 — the first Horn clause
is flipped to `[1, 2]` and the count drops from 2 to 1 = max 0 (2 - 1). -/
theorem adjust_decrease_postcondition_witness :
    count_horn_clauses (adjust_horn_count 0 [[-1, -2], [5]])
      = max 0 (count_horn_clauses [[-1, -2], [5]]
          - List.countP dec_eligible [[-1, -2], [5]]) ∧
    List.Forall₂ (fun orig new => new = orig ∨
        ((orig.filter (fun lit => 0 < lit)).length ≤ 1 ∧ new = posify orig 2))
      [[-1, -2], [5]] (adjust_horn_count 0 [[-1, -2], [5]]) :=
  adjust_decrease_postcondition [[-1, -2], [5]] 0 (by decide)

theorem lookup_cons_key (v k : Nat) (b : Bool) (t : List (Nat × Bool)) :
    List.lookup v ((k, b) :: t) = if v = k then some b else List.lookup v t := by
  rw [List.lookup_cons]
  by_cases h : v = k
  · simp [h]
  · simp [h, beq_false_of_ne h]

theorem lookup_isSome_iff (v : Nat) (sol : List (Nat × Bool)) :
    (List.lookup v sol).isSome ↔ v ∈ sol.map Prod.fst := by
  induction sol with
  | nil => simp [List.lookup]
  | cons p t ih =>
    obtain ⟨k, b⟩ := p
    rw [lookup_cons_key]
    by_cases h : v = k <;> simp [h, ih]

/-- A solution with distinct in-range keys and `num_vars` entries assigns
every variable of `1..num_vars` (the break test of the scan). -/
theorem full_of_inv_length (num_vars : Nat) (sol : List (Nat × Bool))
    (hinv : sol_inv num_vars sol) (hlen : sol.length = num_vars) :
    sol_full num_vars sol := by
  intro v h1 h2
  rw [lookup_isSome_iff]
  have hsub : sol.map Prod.fst ⊆ List.range' 1 num_vars := by
    intro k hk
    rw [List.mem_range'_1]
    have := hinv.2 k hk
    omega
  have hcard1 : (sol.map Prod.fst).toFinset.card = num_vars := by
    rw [List.toFinset_card_of_nodup hinv.1, List.length_map, hlen]
  have hcard2 : (List.range' 1 num_vars).toFinset.card = num_vars := by
    rw [List.toFinset_card_of_nodup (List.nodup_range' 1 num_vars),
      List.length_range']
  have hsubF : (sol.map Prod.fst).toFinset ⊆ (List.range' 1 num_vars).toFinset := by
    intro k hk
    rw [List.mem_toFinset] at *
    exact hsub hk
  have heq := Finset.eq_of_subset_of_card_le hsubF (by omega)
  have hv : v ∈ (List.range' 1 num_vars).toFinset := by
    rw [List.mem_toFinset, List.mem_range'_1]
    omega
  rw [← heq, List.mem_toFinset] at hv
  exact hv

theorem scan_first_append (l₁ l₂ : List Int) (sol : List (Nat × Bool)) :
    scan_first (l₁ ++ l₂) sol = scan_first l₂ (scan_first l₁ sol) := by
  induction l₁ generalizing sol with
  | nil => rfl
  | cons lit rest ih =>
    rw [List.cons_append, scan_first, scan_first]
    by_cases h : (List.lookup lit.natAbs sol).isSome
    · rw [if_pos h, if_pos h, ih]
    · rw [if_neg h, if_neg h, ih]

/-- An already-assigned variable is never overwritten by the scan. -/
theorem scan_first_keeps (lits : List Int) (sol : List (Nat × Bool))
    (v : Nat) (b : Bool) (h : List.lookup v sol = some b) :
    List.lookup v (scan_first lits sol) = some b := by
  induction lits generalizing sol with
  | nil => exact h
  | cons lit rest ih =>
    rw [scan_first]
    by_cases hl : (List.lookup lit.natAbs sol).isSome
    · rw [if_pos hl]
      exact ih sol h
    · rw [if_neg hl]
      refine ih _ ?_
      rw [lookup_cons_key, if_neg ?_]
      · exact h
      · intro hv
        rw [← hv, h] at hl
        exact hl rfl

/-- What the scan assigns to a variable it had not seen: the polarity of the
variable's first occurrence in the literal list (or nothing if it never
occurs). -/
theorem scan_first_none (lits : List Int) (sol : List (Nat × Bool))
    (v : Nat) (h : List.lookup v sol = none) :
    List.lookup v (scan_first lits sol)
      = (lits.find? (fun lit => lit.natAbs == v)).map (fun lit => decide (0 < lit)) := by
  induction lits generalizing sol with
  | nil => exact h
  | cons lit rest ih =>
    rw [scan_first]
    by_cases hv : lit.natAbs = v
    · rw [List.find?_cons_of_pos rest (by simp [hv])]
      by_cases hl : (List.lookup lit.natAbs sol).isSome
      · rw [hv, h] at hl
        exact absurd hl (by simp)
      · rw [if_neg hl]
        refine scan_first_keeps rest _ v (decide (0 < lit)) ?_
        rw [lookup_cons_key, if_pos hv.symm]
    · rw [List.find?_cons_of_neg rest (by simp [hv])]
      by_cases hl : (List.lookup lit.natAbs sol).isSome
      · rw [if_pos hl]
        exact ih sol h
      · rw [if_neg hl]
        refine ih _ ?_
        rw [lookup_cons_key, if_neg (fun hh => hv hh.symm)]
        exact h

theorem scan_first_inv (num_vars : Nat) (lits : List Int) (sol : List (Nat × Bool))
    (hwf : ∀ lit ∈ lits, 1 ≤ lit.natAbs ∧ lit.natAbs ≤ num_vars)
    (hinv : sol_inv num_vars sol) :
    sol_inv num_vars (scan_first lits sol) := by
  induction lits generalizing sol with
  | nil => exact hinv
  | cons lit rest ih =>
    rw [scan_first]
    by_cases hl : (List.lookup lit.natAbs sol).isSome
    · rw [if_pos hl]
      exact ih sol (fun l hm => hwf l (List.mem_cons_of_mem lit hm)) hinv
    · rw [if_neg hl]
      refine ih _ (fun l hm => hwf l (List.mem_cons_of_mem lit hm)) ?_
      constructor
      · refine List.Nodup.cons ?_ hinv.1
        rw [← lookup_isSome_iff]
        exact hl
      · intro k hk
        rcases List.mem_cons.mp hk with hk | hk
        · rw [hk]
          exact hwf lit (List.mem_cons_self lit rest)
        · exact hinv.2 k hk

/-- Once every variable is assigned, the scan is the identity. -/
theorem scan_first_full_id (num_vars : Nat) (lits : List Int)
    (sol : List (Nat × Bool))
    (hwf : ∀ lit ∈ lits, 1 ≤ lit.natAbs ∧ lit.natAbs ≤ num_vars)
    (hfull : sol_full num_vars sol) :
    scan_first lits sol = sol := by
  induction lits with
  | nil => rfl
  | cons lit rest ih =>
    rw [scan_first, if_pos ?_]
    · exact ih (fun l hm => hwf l (List.mem_cons_of_mem lit hm))
    · have := hwf lit (List.mem_cons_self lit rest)
      exact hfull lit.natAbs this.1 this.2

/-- The break inside the literal loop never changes the computed assignment:
under well-formed input, `gs_clause` equals the break-free scan. -/
theorem gs_clause_eq_scan (num_vars : Nat) (lits : List Int)
    (sol : List (Nat × Bool))
    (hwf : ∀ lit ∈ lits, 1 ≤ lit.natAbs ∧ lit.natAbs ≤ num_vars)
    (hinv : sol_inv num_vars sol) :
    gs_clause num_vars lits sol = scan_first lits sol := by
  induction lits generalizing sol with
  | nil => rfl
  | cons lit rest ih =>
    rw [gs_clause, scan_first]
    by_cases hl : (List.lookup lit.natAbs sol).isSome
    · rw [if_pos hl, if_pos hl]
      exact ih sol (fun l hm => hwf l (List.mem_cons_of_mem lit hm)) hinv
    · rw [if_neg hl, if_neg hl]
      simp only
      have hinv' : sol_inv num_vars ((lit.natAbs, decide (0 < lit)) :: sol) := by
        constructor
        · refine List.Nodup.cons ?_ hinv.1
          rw [← lookup_isSome_iff]
          exact hl
        · intro k hk
          rcases List.mem_cons.mp hk with hk | hk
          · rw [hk]
            exact hwf lit (List.mem_cons_self lit rest)
          · exact hinv.2 k hk
      by_cases hlen : ((lit.natAbs, decide (0 < lit)) :: sol).length = num_vars
      · rw [if_pos hlen,
          scan_first_full_id num_vars rest _
            (fun l hm => hwf l (List.mem_cons_of_mem lit hm))
            (full_of_inv_length num_vars _ hinv' hlen)]
      · rw [if_neg hlen]
        exact ih _ (fun l hm => hwf l (List.mem_cons_of_mem lit hm)) hinv'

/-- The break between clauses never changes the computed assignment either:
under well-formed input, the whole scan equals the break-free scan over the
concatenated literals. -/
theorem gs_clauses_eq_scan (num_vars : Nat) (clauses : List (List Int))
    (sol : List (Nat × Bool))
    (hwf : ∀ c ∈ clauses, ∀ lit ∈ c, 1 ≤ lit.natAbs ∧ lit.natAbs ≤ num_vars)
    (hinv : sol_inv num_vars sol) :
    gs_clauses num_vars clauses sol = scan_first clauses.flatten sol := by
  induction clauses generalizing sol with
  | nil => rfl
  | cons c rest ih =>
    rw [gs_clauses, List.flatten_cons, scan_first_append]
    have hwfc := hwf c (List.mem_cons_self c rest)
    have hwfr : ∀ cl ∈ rest, ∀ lit ∈ cl, 1 ≤ lit.natAbs ∧ lit.natAbs ≤ num_vars :=
      fun cl hm => hwf cl (List.mem_cons_of_mem c hm)
    have hwfj : ∀ lit ∈ rest.flatten, 1 ≤ lit.natAbs ∧ lit.natAbs ≤ num_vars := by
      intro lit hm
      obtain ⟨cl, hcl, hlit⟩ := List.mem_flatten.mp hm
      exact hwfr cl hcl lit hlit
    rw [gs_clause_eq_scan num_vars c sol hwfc hinv]
    have hinv' := scan_first_inv num_vars c sol hwfc hinv
    by_cases hlen : (scan_first c sol).length = num_vars
    · rw [if_pos hlen,
        scan_first_full_id num_vars rest.flatten _ hwfj
          (full_of_inv_length num_vars _ hinv' hlen)]
    · rw [if_neg hlen]
      exact ih _ hwfr hinv'

theorem fill_vars_keeps (rnd : Nat → Bool) (vs : List Nat)
    (sol : List (Nat × Bool)) (v : Nat) (b : Bool)
    (h : List.lookup v sol = some b) :
    List.lookup v (fill_vars rnd vs sol) = some b := by
  induction vs generalizing sol with
  | nil => exact h
  | cons var rest ih =>
    rw [fill_vars]
    by_cases hl : (List.lookup var sol).isSome
    · rw [if_pos hl]
      exact ih sol h
    · rw [if_neg hl]
      refine ih _ ?_
      rw [lookup_cons_key, if_neg ?_]
      · exact h
      · intro hv
        rw [← hv, h] at hl
        exact hl rfl

theorem fill_vars_mem (rnd : Nat → Bool) (vs : List Nat) :
    ∀ (sol : List (Nat × Bool)) (v : Nat), v ∈ vs →
      (List.lookup v (fill_vars rnd vs sol)).isSome := by
  induction vs with
  | nil => intro sol v hv; cases hv
  | cons var rest ih =>
    intro sol v hv
    rw [fill_vars]
    by_cases hl : (List.lookup var sol).isSome
    · rw [if_pos hl]
      rcases List.mem_cons.mp hv with hv' | hv'
      · have hvs : (List.lookup v sol).isSome := by rw [hv']; exact hl
        obtain ⟨b, hb⟩ := Option.isSome_iff_exists.mp hvs
        rw [fill_vars_keeps rnd rest sol v b hb]
        rfl
      · exact ih sol v hv'
    · rw [if_neg hl]
      rcases List.mem_cons.mp hv with hv' | hv'
      · rw [fill_vars_keeps rnd rest _ v (rnd var)
          (by rw [lookup_cons_key, if_pos hv'])]
        rfl
      · exact ih _ v hv'

theorem fill_vars_isSome_inv (rnd : Nat → Bool) (vs : List Nat)
    (sol : List (Nat × Bool)) (v : Nat)
    (h : (List.lookup v (fill_vars rnd vs sol)).isSome) :
    v ∈ vs ∨ (List.lookup v sol).isSome := by
  induction vs generalizing sol with
  | nil => exact Or.inr h
  | cons var rest ih =>
    rw [fill_vars] at h
    by_cases hl : (List.lookup var sol).isSome
    · rw [if_pos hl] at h
      rcases ih sol h with hm | hm
      · exact Or.inl (List.mem_cons_of_mem var hm)
      · exact Or.inr hm
    · rw [if_neg hl] at h
      rcases ih _ h with hm | hm
      · exact Or.inl (List.mem_cons_of_mem var hm)
      · rw [lookup_cons_key] at hm
        by_cases hv : v = var
        · exact Or.inl (List.mem_cons.mpr (Or.inl hv))
        · rw [if_neg hv] at hm
          exact Or.inr hm

/-- A variable the scan never saw receives the oracle's boolean. -/
theorem fill_vars_rnd (rnd : Nat → Bool) (vs : List Nat)
    (sol : List (Nat × Bool)) (v : Nat)
    (h : List.lookup v sol = none) (hv : v ∈ vs) :
    List.lookup v (fill_vars rnd vs sol) = some (rnd v) := by
  induction vs generalizing sol with
  | nil => cases hv
  | cons var rest ih =>
    rw [fill_vars]
    by_cases hveq : v = var
    · have hl : ¬(List.lookup var sol).isSome = true := by
        rw [← hveq, h]
        intro hc
        exact Bool.noConfusion hc
      rw [if_neg hl]
      refine fill_vars_keeps rnd rest _ v (rnd v) ?_
      rw [lookup_cons_key, if_pos hveq, hveq]
    · have hv' : v ∈ rest := by
        rcases List.mem_cons.mp hv with hv'' | hv''
        · exact absurd hv'' hveq
        · exact hv''
      by_cases hl : (List.lookup var sol).isSome
      · rw [if_pos hl]
        exact ih sol h hv'
      · rw [if_neg hl]
        refine ih _ ?_ hv'
        rw [lookup_cons_key, if_neg hveq]
        exact h

/-- C7: under well-formed input, `generate_solution` returns an assignment
whose domain is exactly `1..num_vars`; a variable occurring in the clauses
gets the polarity of its first occurrence in clause order, and a variable
never encountered gets the random oracle's boolean. -/
theorem generate_solution_correct (rnd : Nat → Bool) (clauses : List (List Int))
    (num_vars : Nat)
    (hwf : ∀ c ∈ clauses, ∀ lit ∈ c, 1 ≤ lit.natAbs ∧ lit.natAbs ≤ num_vars) :
    (∀ v : Nat, (List.lookup v (generate_solution rnd clauses num_vars)).isSome
        ↔ (1 ≤ v ∧ v ≤ num_vars)) ∧
    (∀ v : Nat, ∀ lit₀ : Int,
        clauses.flatten.find? (fun lit => lit.natAbs == v) = some lit₀ →
        List.lookup v (generate_solution rnd clauses num_vars)
          = some (decide (0 < lit₀))) ∧
    (∀ v : Nat, 1 ≤ v → v ≤ num_vars →
        clauses.flatten.find? (fun lit => lit.natAbs == v) = none →
        List.lookup v (generate_solution rnd clauses num_vars) = some (rnd v)) := by
  have hinv0 : sol_inv num_vars ([] : List (Nat × Bool)) :=
    ⟨List.nodup_nil, fun k hk => absurd hk (List.not_mem_nil k)⟩
  have hscan := gs_clauses_eq_scan num_vars clauses [] hwf hinv0
  have hwfj : ∀ lit ∈ clauses.flatten, 1 ≤ lit.natAbs ∧ lit.natAbs ≤ num_vars := by
    intro lit hm
    obtain ⟨cl, hcl, hlit⟩ := List.mem_flatten.mp hm
    exact hwf cl hcl lit hlit
  have hlookup := fun v => scan_first_none clauses.flatten [] v rfl
  refine ⟨fun v => ⟨fun hs => ?_, fun hb => ?_⟩, fun v lit₀ hfind => ?_, fun v h1 h2 hfind => ?_⟩
  · rw [generate_solution, hscan] at hs
    rcases fill_vars_isSome_inv rnd _ _ v hs with hm | hm
    · rw [List.mem_range'_1] at hm
      omega
    · have := (lookup_isSome_iff v _).mp hm
      have hib := (scan_first_inv num_vars clauses.flatten [] hwfj hinv0).2 v this
      exact hib
  · rw [generate_solution, hscan]
    exact fill_vars_mem rnd _ _ v (by rw [List.mem_range'_1]; omega)
  · rw [generate_solution, hscan]
    have hsc : List.lookup v (scan_first clauses.flatten []) = some (decide (0 < lit₀)) := by
      rw [hlookup v, hfind]
      rfl
    exact fill_vars_keeps rnd _ _ v _ hsc
  · rw [generate_solution, hscan]
    have hsc : List.lookup v (scan_first clauses.flatten []) = none := by
      rw [hlookup v, hfind]
      rfl
    exact fill_vars_rnd rnd _ _ v hsc (by rw [List.mem_range'_1]; omega)

/-- Witness for C7: `[[1, -2]]` with three variables — variable 1 takes the
polarity of its positive first occurrence, variable 2 of its negative one,
and the never-encountered variable 3 takes the oracle's value. -/
theorem generate_solution_correct_witness :
    (∀ v : Nat, (List.lookup v (generate_solution (fun _ => false) [[1, -2]] 3)).isSome
        ↔ (1 ≤ v ∧ v ≤ 3)) ∧
    (∀ v : Nat, ∀ lit₀ : Int,
        ([[1, -2]] : List (List Int)).flatten.find? (fun lit => lit.natAbs == v) = some lit₀ →
        List.lookup v (generate_solution (fun _ => false) [[1, -2]] 3)
          = some (decide (0 < lit₀))) ∧
    (∀ v : Nat, 1 ≤ v → v ≤ 3 →
        ([[1, -2]] : List (List Int)).flatten.find? (fun lit => lit.natAbs == v) = none →
        List.lookup v (generate_solution (fun _ => false) [[1, -2]] 3) = some ((fun _ => false : Nat → Bool) v)) :=
  generate_solution_correct (fun _ => false) [[1, -2]] 3 (by decide)

theorem flip_pass_nil (sol : Nat → Bool) (want : Bool) (clause : List Int) :
    flip_pass sol want [] clause = clause := rfl

theorem flip_pass_cons (sol : Nat → Bool) (want : Bool) (p : Nat × Int)
    (rest : List (Nat × Int)) (clause : List Int) :
    flip_pass sol want (p :: rest) clause
      = flip_pass sol want rest
          (if !(is_clause_satisfied clause sol) && (sol p.2.natAbs == want)
           then clause.set p.1 (-p.2) else clause) := rfl

theorem flip_neg_all_nil (sol : Nat → Bool) (clause : List Int) :
    flip_neg_all sol [] clause = clause := rfl

theorem flip_neg_all_cons (sol : Nat → Bool) (p : Nat × Int)
    (rest : List (Nat × Int)) (clause : List Int) :
    flip_neg_all sol (p :: rest) clause
      = flip_neg_all sol rest
          (if sol p.2.natAbs == true then clause.set p.1 (-p.2) else clause) := rfl

theorem mem_positive_literals {p : Nat × Int} {clause : List Int} :
    p ∈ positive_literals clause ↔ clause[p.1]? = some p.2 ∧ 0 < p.2 := by
  simp [positive_literals, List.mem_filter, List.mem_enum_iff_getElem?]

theorem mem_negative_literals {p : Nat × Int} {clause : List Int} :
    p ∈ negative_literals clause ↔ clause[p.1]? = some p.2 ∧ p.2 < 0 := by
  simp [negative_literals, List.mem_filter, List.mem_enum_iff_getElem?]

/-- In an unsatisfied clause, every literal's assignment is the negation of
its polarity. -/
theorem unsat_forall {clause : List Int} {sol : Nat → Bool}
    (h : is_clause_satisfied clause sol = false) :
    ∀ lit ∈ clause, sol lit.natAbs = !(decide (0 < lit)) := by
  rw [is_clause_satisfied, List.any_eq_false] at h
  intro lit hm
  have := h lit hm
  cases hsol : sol lit.natAbs <;> cases hd : decide (0 < lit) <;> simp_all

/-- Overwriting a position with a literal that agrees with the assignment
satisfies the clause. -/
theorem is_clause_satisfied_set {clause : List Int} {sol : Nat → Bool}
    {i : Nat} {x : Int} (hi : i < clause.length)
    (hx : sol x.natAbs = decide (0 < x)) :
    is_clause_satisfied (clause.set i x) sol = true := by
  rw [is_clause_satisfied, List.any_eq_true]
  have hi' : i < (clause.set i x).length := by
    rw [List.length_set]
    exact hi
  have hget := List.getElem_set_self (l := clause) (i := i) (a := x) hi'
  have hmem : (clause.set i x)[i] ∈ clause.set i x := List.getElem_mem hi'
  rw [hget] at hmem
  exact ⟨x, hmem, by simp [hx]⟩

/-- The guarded pass leaves a satisfied clause untouched ("no further flips
once satisfied"). -/
theorem flip_pass_of_sat (sol : Nat → Bool) (want : Bool)
    (pairs : List (Nat × Int)) (clause : List Int)
    (h : is_clause_satisfied clause sol = true) :
    flip_pass sol want pairs clause = clause := by
  induction pairs with
  | nil => rfl
  | cons p rest ih =>
    rw [flip_pass_cons, if_neg (by rw [h]; simp)]
    exact ih

/-- If every pair of the guarded pass is in range, matches the guard and
flips to a literal agreeing with the assignment, a nonempty pass satisfies
the clause (the very first executed flip already does). -/
theorem flip_pass_creates (sol : Nat → Bool) (want : Bool)
    (pairs : List (Nat × Int)) (clause : List Int) (hne : pairs ≠ [])
    (hall : ∀ p ∈ pairs,
      p.1 < clause.length ∧ sol p.2.natAbs = want ∧ decide (0 < -p.2) = want) :
    is_clause_satisfied (flip_pass sol want pairs clause) sol = true := by
  cases pairs with
  | nil => exact absurd rfl hne
  | cons p rest =>
    rw [flip_pass_cons]
    by_cases hsat : is_clause_satisfied clause sol = true
    · rw [if_neg (by rw [hsat]; simp), flip_pass_of_sat _ _ _ _ hsat]
      exact hsat
    · have hunsat : is_clause_satisfied clause sol = false := by
        cases h : is_clause_satisfied clause sol
        · rfl
        · exact absurd h hsat
      obtain ⟨hlt, hw, hd⟩ := hall p (List.mem_cons_self p rest)
      rw [if_pos (by rw [hunsat, hw]; simp)]
      have hs1 : is_clause_satisfied (clause.set p.1 (-p.2)) sol = true :=
        is_clause_satisfied_set hlt (by rw [Int.natAbs_neg, hw, hd])
      rw [flip_pass_of_sat _ _ _ _ hs1]
      exact hs1

/-- The unguarded negative pass never unsatisfies a clause: each executed
flip writes a literal that agrees with the assignment. -/
theorem flip_neg_all_preserves (sol : Nat → Bool) (pairs : List (Nat × Int)) :
    ∀ clause : List Int, (∀ p ∈ pairs, p.2 < 0) →
      is_clause_satisfied clause sol = true →
      is_clause_satisfied (flip_neg_all sol pairs clause) sol = true := by
  induction pairs with
  | nil => intro c _ h; exact h
  | cons p rest ih =>
    intro c hneg h
    rw [flip_neg_all_cons]
    by_cases hg : sol p.2.natAbs = true
    · rw [if_pos (by rw [hg]; rfl)]
      refine ih _ (fun q hq => hneg q (List.mem_cons_of_mem p hq)) ?_
      by_cases hlt : p.1 < c.length
      · refine is_clause_satisfied_set hlt ?_
        rw [Int.natAbs_neg, hg]
        have hp := hneg p (List.mem_cons_self p rest)
        have : (0 : Int) < -p.2 := by omega
        simp [this]
      · rw [List.set_eq_of_length_le (by omega)]
        exact h
    · rw [if_neg (by simp [hg])]
      exact ih _ (fun q hq => hneg q (List.mem_cons_of_mem p hq)) h

/-- A nonempty unguarded negative pass whose pairs are in range, negative
and assigned true satisfies the clause. -/
theorem flip_neg_all_creates (sol : Nat → Bool) (pairs : List (Nat × Int))
    (clause : List Int) (hne : pairs ≠ [])
    (hall : ∀ p ∈ pairs,
      p.1 < clause.length ∧ p.2 < 0 ∧ sol p.2.natAbs = true) :
    is_clause_satisfied (flip_neg_all sol pairs clause) sol = true := by
  cases pairs with
  | nil => exact absurd rfl hne
  | cons p rest =>
    obtain ⟨hlt, hn, hs⟩ := hall p (List.mem_cons_self p rest)
    rw [flip_neg_all_cons, if_pos (by rw [hs]; rfl)]
    refine flip_neg_all_preserves sol rest _
      (fun q hq => (hall q (List.mem_cons_of_mem p hq)).2.1) ?_
    refine is_clause_satisfied_set hlt ?_
    rw [Int.natAbs_neg, hs]
    have : (0 : Int) < -p.2 := by omega
    simp [this]

theorem fst_ite_pair {b : Prop} [Decidable b] (c : List Int) (x y : Int) :
    (if b then (c, x) else (c, y)).1 = c := by
  split <;> rfl

/-- The eligibility facts of an unsatisfied clause: every snapshot pair is in
range, every positive literal's variable is assigned false and every negative
literal's variable is assigned true. -/
theorem unsat_pair_facts {clause : List Int} {sol : Nat → Bool}
    (hunsat : is_clause_satisfied clause sol = false) :
    (∀ p ∈ positive_literals clause,
      p.1 < clause.length ∧ sol p.2.natAbs = false ∧ decide (0 < -p.2) = false) ∧
    (∀ p ∈ negative_literals clause,
      p.1 < clause.length ∧ p.2 < 0 ∧ sol p.2.natAbs = true ∧
        decide (0 < -p.2) = true) := by
  have hfacts := unsat_forall hunsat
  constructor
  · intro p hp
    obtain ⟨hget, hppos⟩ := mem_positive_literals.mp hp
    obtain ⟨hlt, heq⟩ := List.getElem?_eq_some.mp hget
    have hmem : p.2 ∈ clause := by
      rw [← heq]
      exact List.getElem_mem hlt
    have hval := hfacts p.2 hmem
    refine ⟨hlt, ?_, ?_⟩
    · rw [hval]
      simp [hppos]
    · simp
      omega
  · intro p hp
    obtain ⟨hget, hpneg⟩ := mem_negative_literals.mp hp
    obtain ⟨hlt, heq⟩ := List.getElem?_eq_some.mp hget
    have hmem : p.2 ∈ clause := by
      rw [← heq]
      exact List.getElem_mem hlt
    have hval := hfacts p.2 hmem
    refine ⟨hlt, hpneg, ?_, ?_⟩
    · rw [hval]
      simp
      omega
    · simp
      omega

/-- A clause holding a nonzero literal yields a nonempty snapshot. -/
theorem pos_or_neg_ne_nil {clause : List Int}
    (hnz : ∃ lit ∈ clause, lit ≠ 0) :
    positive_literals clause ≠ [] ∨ negative_literals clause ≠ [] := by
  obtain ⟨lit, hm, hne⟩ := hnz
  obtain ⟨i, hget⟩ := List.mem_iff_getElem?.mp hm
  rcases lt_trichotomy 0 lit with hl | hl | hl
  · left
    intro hcon
    have hmem : ((i, lit) : Nat × Int) ∈ positive_literals clause :=
      mem_positive_literals.mpr ⟨hget, hl⟩
    rw [hcon] at hmem
    cases hmem
  · exact absurd hl.symm hne
  · right
    intro hcon
    have hmem : ((i, lit) : Nat × Int) ∈ negative_literals clause :=
      mem_negative_literals.mpr ⟨hget, hl⟩
    rw [hcon] at hmem
    cases hmem

/-- Every clause containing a nonzero literal is satisfied after its own
repair step, in all four policy branches. -/
theorem repair_clause_sat (sol : Nat → Bool) (t hc : Int) (clause : List Int)
    (hnz : ∃ lit ∈ clause, lit ≠ 0) :
    is_clause_satisfied (repair_clause sol t hc clause).1 sol = true := by
  by_cases hsat : is_clause_satisfied clause sol = true
  · rw [repair_clause, if_pos hsat]
    exact hsat
  · have hunsat : is_clause_satisfied clause sol = false := by
      cases h : is_clause_satisfied clause sol
      · rfl
      · exact absurd h hsat
    obtain ⟨hposf, hnegf⟩ := unsat_pair_facts hunsat
    have hor := pos_or_neg_ne_nil hnz
    simp only [repair_clause, if_neg hsat]
    by_cases hct : hc ≤ t
    · rw [if_pos hct]
      by_cases hlen : 1 < (positive_literals clause).length
      · rw [if_pos hlen, fst_ite_pair]
        refine flip_pass_creates sol false _ clause ?_
          (fun p hp => ⟨(hposf p hp).1, (hposf p hp).2.1, (hposf p hp).2.2⟩)
        intro hcon
        rw [hcon] at hlen
        simp at hlen
      · rw [if_neg hlen, fst_ite_pair]
        by_cases hpos : positive_literals clause = []
        · rw [hpos, flip_pass_nil]
          have hneg : negative_literals clause ≠ [] := by
            rcases hor with h | h
            · exact absurd hpos h
            · exact h
          exact flip_pass_creates sol true _ clause hneg
            (fun p hp => ⟨(hnegf p hp).1, (hnegf p hp).2.2.1, (hnegf p hp).2.2.2⟩)
        · have hc1 : is_clause_satisfied
              (flip_pass sol false (positive_literals clause) clause) sol = true :=
            flip_pass_creates sol false _ clause hpos
              (fun p hp => ⟨(hposf p hp).1, (hposf p hp).2.1, (hposf p hp).2.2⟩)
          rw [flip_pass_of_sat _ _ _ _ hc1]
          exact hc1
    · rw [if_neg hct]
      by_cases hlen : 1 < (positive_literals clause).length
      · rw [if_pos hlen, fst_ite_pair]
        by_cases hneg : negative_literals clause = []
        · rw [hneg, flip_neg_all_nil]
          refine flip_pass_creates sol false _ clause ?_
            (fun p hp => ⟨(hposf p hp).1, (hposf p hp).2.1, (hposf p hp).2.2⟩)
          intro hcon
          rw [hcon] at hlen
          simp at hlen
        · have hc1 : is_clause_satisfied
              (flip_neg_all sol (negative_literals clause) clause) sol = true :=
            flip_neg_all_creates sol _ clause hneg
              (fun p hp => ⟨(hnegf p hp).1, (hnegf p hp).2.1, (hnegf p hp).2.2.1⟩)
          rw [flip_pass_of_sat _ _ _ _ hc1]
          exact hc1
      · rw [if_neg hlen, if_pos (by rw [hunsat]; rfl), fst_ite_pair]
        by_cases hneg : negative_literals clause = []
        · rw [hneg, flip_neg_all_nil]
          have hpos : positive_literals clause ≠ [] := by
            rcases hor with h | h
            · exact h
            · exact absurd hneg h
          exact flip_pass_creates sol false _ clause hpos
            (fun p hp => ⟨(hposf p hp).1, (hposf p hp).2.1, (hposf p hp).2.2⟩)
        · have hc1 : is_clause_satisfied
              (flip_neg_all sol (negative_literals clause) clause) sol = true :=
            flip_neg_all_creates sol _ clause hneg
              (fun p hp => ⟨(hnegf p hp).1, (hnegf p hp).2.1, (hnegf p hp).2.2.1⟩)
          rw [flip_pass_of_sat _ _ _ _ hc1]
          exact hc1

/-- Every clause of the repaired list is satisfied: a clause once repaired
is never touched again (flips are per-clause), and the assignment never
changes. -/
theorem repair_loop_sat (sol : Nat → Bool) (t : Int) (cls : List (List Int)) :
    ∀ hc : Int, (∀ c ∈ cls, ∃ lit ∈ c, lit ≠ 0) →
      ∀ c' ∈ (repair_loop sol t cls hc).1, is_clause_satisfied c' sol = true := by
  induction cls with
  | nil => intro hc _ c' hmem; cases hmem
  | cons c rest ih =>
    intro hc hnz c' hmem
    rw [repair_loop] at hmem
    rcases List.mem_cons.mp hmem with hmem | hmem
    · rw [hmem]
      exact repair_clause_sat sol t hc c (hnz c (List.mem_cons_self c rest))
    · exact ih _ (fun cl hcl => hnz cl (List.mem_cons_of_mem c hcl)) c' hmem

/-- Shared fact behind C1: after `make_satisfiable`, every clause of a
well-formed formula is satisfied by the internally built assignment. -/
theorem make_satisfiable_all_sat (rnd : Nat → Bool) (clauses : List (List Int))
    (num_vars : Nat) (target : Int)
    (hwf : ∀ c ∈ clauses, c ≠ [] ∧ ∀ lit ∈ c, 1 ≤ lit.natAbs ∧ lit.natAbs ≤ num_vars) :
    ∀ c' ∈ make_satisfiable rnd clauses num_vars target,
      is_clause_satisfied c' (internal_solution rnd clauses num_vars) = true := by
  intro c' hm
  refine repair_loop_sat _ target clauses _ ?_ c' hm
  intro c hcm
  obtain ⟨hne, hlits⟩ := hwf c hcm
  cases c with
  | nil => exact absurd rfl hne
  | cons l rest =>
    refine ⟨l, List.mem_cons_self l rest, ?_⟩
    have hl := hlits l (List.mem_cons_self l rest)
    intro h0
    rw [h0] at hl
    simp at hl

/-- C1 (amended): the repair is not best-effort at all on well-formed input —
after `make_satisfiable` returns, EVERY clause is satisfied by the assignment
it built internally.  The single left-to-right pass suffices because a later
clause's flips only mutate that later clause (the earlier clauses and the
assignment are untouched), and each unsatisfied non-empty clause is satisfied
by its own repair step in all four policy branches. -/
theorem make_satisfiable_repairs_every_clause (rnd : Nat → Bool)
    (clauses : List (List Int)) (num_vars : Nat) (target : Int)
    (hwf : ∀ c ∈ clauses, c ≠ [] ∧ ∀ lit ∈ c, 1 ≤ lit.natAbs ∧ lit.natAbs ≤ num_vars) :
    ∀ c' ∈ make_satisfiable rnd clauses num_vars target,
      is_clause_satisfied c' (internal_solution rnd clauses num_vars) = true :=
  make_satisfiable_all_sat rnd clauses num_vars target hwf

/-- Witness for the amended C1 at the concrete input `[[1, 2], [-1, -2]]`
(where the second clause is initially unsatisfied by the internal assignment
and gets repaired to `[1, 2]`). -/
theorem make_satisfiable_repairs_every_clause_witness :
    is_clause_satisfied [1, 2]
      (internal_solution (fun _ => false) [[1, 2], [-1, -2]] 2) = true :=
  make_satisfiable_repairs_every_clause (fun _ => false) [[1, 2], [-1, -2]] 2 0
    (by decide) [1, 2] (by decide)

/-- C1 counterexample (the claim's negation): there is NO well-formed
formula, target and random draw for which some clause of the repaired list
is left unsatisfied by the internally built assignment. -/
theorem make_satisfiable_never_fails :
    ¬ ∃ (clauses : List (List Int)) (num_vars : Nat) (target : Int) (rnd : Nat → Bool),
      (∀ c ∈ clauses, c ≠ [] ∧ ∀ lit ∈ c, 1 ≤ lit.natAbs ∧ lit.natAbs ≤ num_vars) ∧
      ∃ c ∈ make_satisfiable rnd clauses num_vars target,
        is_clause_satisfied c (internal_solution rnd clauses num_vars) = false := by
  rintro ⟨clauses, num_vars, target, rnd, hwf, c, hm, hfalse⟩
  have hs := make_satisfiable_all_sat rnd clauses num_vars target hwf c hm
  rw [hs] at hfalse
  cases hfalse

theorem getD_set_eq (c : List Int) (i : Nat) (x : Int) (hi : i < c.length) :
    (c.set i x).getD i 0 = x := by
  rw [List.getD_eq_getElem?_getD, List.getElem?_set_self hi]
  rfl

theorem getD_set_ne (c : List Int) (i j : Nat) (x : Int) (hij : i ≠ j) :
    (c.set i x).getD j 0 = c.getD j 0 := by
  rw [List.getD_eq_getElem?_getD, List.getElem?_set_ne hij,
    ← List.getD_eq_getElem?_getD]

theorem flip_rel_refl (sol : Nat → Bool) (orig : List Int) :
    flip_rel sol orig orig :=
  ⟨rfl, fun _ => Or.inl rfl⟩

theorem flip_rel_set (sol : Nat → Bool) (orig c : List Int)
    (hrel : flip_rel sol orig c) (i : Nat) (x : Int)
    (hget : orig[i]? = some x) (hagree : sol x.natAbs = decide (0 < -x)) :
    flip_rel sol orig (c.set i (-x)) := by
  obtain ⟨hlt, heq⟩ := List.getElem?_eq_some.mp hget
  have horigD : orig.getD i 0 = x := by
    rw [List.getD_eq_getElem?_getD, hget]
    rfl
  refine ⟨by rw [List.length_set, hrel.1], fun j => ?_⟩
  by_cases hij : i = j
  · subst hij
    have hlt' : i < c.length := by
      rw [hrel.1]
      exact hlt
    rw [getD_set_eq c i (-x) hlt', horigD]
    exact Or.inr ⟨rfl, hagree⟩
  · rw [getD_set_ne c i j (-x) hij]
    exact hrel.2 j

theorem flip_pass_rel (sol : Nat → Bool) (want : Bool) (orig : List Int)
    (pairs : List (Nat × Int))
    (hall : ∀ p ∈ pairs, orig[p.1]? = some p.2 ∧ decide (0 < -p.2) = want) :
    ∀ c, flip_rel sol orig c → flip_rel sol orig (flip_pass sol want pairs c) := by
  induction pairs with
  | nil => intro c h; exact h
  | cons p rest ih =>
    intro c h
    rw [flip_pass_cons]
    by_cases hg : (!(is_clause_satisfied c sol) && (sol p.2.natAbs == want)) = true
    · rw [if_pos hg]
      obtain ⟨hget, hd⟩ := hall p (List.mem_cons_self p rest)
      have hw : sol p.2.natAbs = want :=
        eq_of_beq ((Bool.and_eq_true _ _).mp hg).2
      exact ih (fun q hq => hall q (List.mem_cons_of_mem p hq)) _
        (flip_rel_set sol orig c h p.1 p.2 hget (by rw [hw, hd]))
    · rw [if_neg hg]
      exact ih (fun q hq => hall q (List.mem_cons_of_mem p hq)) c h

theorem flip_neg_all_rel (sol : Nat → Bool) (orig : List Int)
    (pairs : List (Nat × Int))
    (hall : ∀ p ∈ pairs, orig[p.1]? = some p.2 ∧ decide (0 < -p.2) = true) :
    ∀ c, flip_rel sol orig c → flip_rel sol orig (flip_neg_all sol pairs c) := by
  induction pairs with
  | nil => intro c h; exact h
  | cons p rest ih =>
    intro c h
    rw [flip_neg_all_cons]
    by_cases hg : (sol p.2.natAbs == true) = true
    · rw [if_pos hg]
      obtain ⟨hget, hd⟩ := hall p (List.mem_cons_self p rest)
      have hw : sol p.2.natAbs = true := eq_of_beq hg
      exact ih (fun q hq => hall q (List.mem_cons_of_mem p hq)) _
        (flip_rel_set sol orig c h p.1 p.2 hget (by rw [hw, hd]))
    · rw [if_neg hg]
      exact ih (fun q hq => hall q (List.mem_cons_of_mem p hq)) c h

theorem pos_pairs_facts (clause : List Int) :
    ∀ p ∈ positive_literals clause,
      clause[p.1]? = some p.2 ∧ decide (0 < -p.2) = false := by
  intro p hp
  obtain ⟨hget, hpos⟩ := mem_positive_literals.mp hp
  refine ⟨hget, ?_⟩
  simp
  omega

theorem neg_pairs_facts (clause : List Int) :
    ∀ p ∈ negative_literals clause,
      clause[p.1]? = some p.2 ∧ decide (0 < -p.2) = true := by
  intro p hp
  obtain ⟨hget, hneg⟩ := mem_negative_literals.mp hp
  refine ⟨hget, ?_⟩
  simp
  omega

/-- Each repair branch only composes flip passes over snapshot pairs of the
original clause, so the frame relation holds for its output. -/
theorem repair_clause_rel (sol : Nat → Bool) (t hc : Int) (clause : List Int) :
    flip_rel sol clause (repair_clause sol t hc clause).1 := by
  by_cases hsat : is_clause_satisfied clause sol = true
  · rw [repair_clause, if_pos hsat]
    exact flip_rel_refl sol clause
  · have hunsat : is_clause_satisfied clause sol = false := by
      cases h : is_clause_satisfied clause sol
      · rfl
      · exact absurd h hsat
    simp only [repair_clause, if_neg hsat]
    by_cases hct : hc ≤ t
    · rw [if_pos hct]
      by_cases hlen : 1 < (positive_literals clause).length
      · rw [if_pos hlen, fst_ite_pair]
        exact flip_pass_rel sol false clause _ (pos_pairs_facts clause) clause
          (flip_rel_refl sol clause)
      · rw [if_neg hlen, fst_ite_pair]
        exact flip_pass_rel sol true clause _ (neg_pairs_facts clause) _
          (flip_pass_rel sol false clause _ (pos_pairs_facts clause) clause
            (flip_rel_refl sol clause))
    · rw [if_neg hct]
      by_cases hlen : 1 < (positive_literals clause).length
      · rw [if_pos hlen, fst_ite_pair]
        exact flip_pass_rel sol false clause _ (pos_pairs_facts clause) _
          (flip_neg_all_rel sol clause _ (neg_pairs_facts clause) clause
            (flip_rel_refl sol clause))
      · rw [if_neg hlen, if_pos (by rw [hunsat]; rfl), fst_ite_pair]
        exact flip_pass_rel sol false clause _ (pos_pairs_facts clause) _
          (flip_neg_all_rel sol clause _ (neg_pairs_facts clause) clause
            (flip_rel_refl sol clause))

theorem repair_loop_rel (sol : Nat → Bool) (t : Int) (cls : List (List Int)) :
    ∀ hc : Int, List.Forall₂ (flip_rel sol) cls (repair_loop sol t cls hc).1 := by
  induction cls with
  | nil => intro hc; exact List.Forall₂.nil
  | cons c rest ih =>
    intro hc
    exact List.Forall₂.cons (repair_clause_rel sol t hc c) (ih _)

/-- C6: `make_satisfiable` changes only literal polarities — clause lengths
and the variable (absolute value) at every position are preserved, the
assignment is a fixed function that the repairer never modifies, and every
changed position holds the negation of its old literal with a polarity that
agrees with the internal assignment's value for that variable. -/
theorem make_satisfiable_frame (rnd : Nat → Bool) (clauses : List (List Int))
    (num_vars : Nat) (target : Int) :
    List.Forall₂ (fun orig new =>
        new.length = orig.length ∧
        ∀ j : Nat, (new.getD j 0).natAbs = (orig.getD j 0).natAbs ∧
          (new.getD j 0 = orig.getD j 0 ∨
            (new.getD j 0 = -(orig.getD j 0) ∧
              internal_solution rnd clauses num_vars (orig.getD j 0).natAbs
                = decide (0 < new.getD j 0))))
      clauses (make_satisfiable rnd clauses num_vars target) := by
  have h := repair_loop_rel (internal_solution rnd clauses num_vars) target
    clauses (count_horn_clauses clauses : Int)
  refine List.Forall₂.imp ?_ h
  intro a b hab
  refine ⟨hab.1, fun j => ?_⟩
  rcases hab.2 j with h' | h'
  · exact ⟨by rw [h'], Or.inl h'⟩
  · exact ⟨by rw [h'.1, Int.natAbs_neg], Or.inr h'⟩

theorem length_filter_enumFrom (n : Nat) (c : List Int) (q : Int → Bool) :
    ((List.enumFrom n c).filter (fun p => q p.2)).length = (c.filter q).length := by
  induction c generalizing n with
  | nil => rfl
  | cons a r ih =>
    show ((( n, a) :: List.enumFrom (n + 1) r).filter (fun p => q p.2)).length
      = ((a :: r).filter q).length
    rw [List.filter_cons, List.filter_cons]
    cases hq : q a <;> simp [hq, ih]

/-- The snapshot pair list has as many entries as the clause has positive
literals. -/
theorem length_positive_literals (clause : List Int) :
    (positive_literals clause).length
      = (clause.filter (fun lit => 0 < lit)).length :=
  length_filter_enumFrom 0 clause (fun lit => decide (0 < lit))

theorem length_negative_literals (clause : List Int) :
    (negative_literals clause).length
      = (clause.filter (fun lit => lit < 0)).length :=
  length_filter_enumFrom 0 clause (fun lit => decide (lit < 0))

/-- C5: in the `current ≤ target`, at-most-one-positive-literal branch,
every unsatisfied non-empty clause is satisfied by its very first flip: the
head of `positive_literals ++ negative_literals` is flipped, the result is
satisfied, still has at most one positive literal, and the Horn-count
tracker is returned unchanged (the decrement of that branch is dead). -/
theorem repair_le_branch_first_flip (sol : Nat → Bool) (t hc : Int)
    (clause : List Int)
    (hnz : ∃ lit ∈ clause, lit ≠ 0)
    (hle : hc ≤ t)
    (hhorn : (clause.filter (fun lit => 0 < lit)).length ≤ 1)
    (hunsat : is_clause_satisfied clause sol = false) :
    ∃ p : Nat × Int,
      (positive_literals clause ++ negative_literals clause).head? = some p ∧
      (repair_clause sol t hc clause).1 = clause.set p.1 (-p.2) ∧
      is_clause_satisfied (clause.set p.1 (-p.2)) sol = true ∧
      ((repair_clause sol t hc clause).1.filter (fun lit => 0 < lit)).length ≤ 1 ∧
      (repair_clause sol t hc clause).2 = hc := by
  have hsat' : ¬ is_clause_satisfied clause sol = true := by
    rw [hunsat]
    simp
  have hlen : ¬ 1 < (positive_literals clause).length := by
    rw [length_positive_literals]
    omega
  obtain ⟨hposf, hnegf⟩ := unsat_pair_facts hunsat
  have hor := pos_or_neg_ne_nil hnz
  have hcount : (clause.filter (fun lit => 0 < lit)).length
      = (positive_literals clause).length := (length_positive_literals clause).symm
  simp only [repair_clause, if_neg hsat', if_pos hle, if_neg hlen]
  cases hp : positive_literals clause with
  | cons p prest =>
    have hprest : prest = [] := by
      cases prest with
      | nil => rfl
      | cons a l =>
        exfalso
        apply hlen
        rw [hp]
        simp only [List.length_cons]
        omega
    subst hprest
    have hpmem : p ∈ positive_literals clause := by
      rw [hp]
      exact List.mem_cons_self p []
    obtain ⟨hplt, hpsol, hpd⟩ := hposf p hpmem
    obtain ⟨hpget, hppos⟩ := mem_positive_literals.mp hpmem
    obtain ⟨hplt', hpelem⟩ := List.getElem?_eq_some.mp hpget
    have hcount1 : (clause.filter (fun lit => 0 < lit)).length = 1 := by
      rw [hcount, hp]
      rfl
    have hc1 : flip_pass sol false [p] clause = clause.set p.1 (-p.2) := by
      rw [flip_pass_cons, if_pos (by rw [hunsat, hpsol]; simp), flip_pass_nil]
    have hsatset : is_clause_satisfied (clause.set p.1 (-p.2)) sol = true :=
      is_clause_satisfied_set hplt (by rw [Int.natAbs_neg, hpsol, hpd])
    have hc2 : flip_pass sol true (negative_literals clause)
        (flip_pass sol false [p] clause) = clause.set p.1 (-p.2) := by
      rw [hc1, flip_pass_of_sat _ _ _ _ hsatset]
    have hposcount : ((clause.set p.1 (-p.2)).filter
        (fun lit => 0 < lit)).length = 0 := by
      rw [← List.countP_eq_length_filter,
        List.countP_set (fun lit => decide (0 < lit)) clause p.1 (-p.2) hplt,
        List.countP_eq_length_filter, hpelem, decide_eq_true hppos, hpd, hcount1]
      decide
    refine ⟨p, rfl, ?_, hsatset, ?_, ?_⟩
    · rw [hc2, fst_ite_pair]
    · rw [hc2, fst_ite_pair, hposcount]
      omega
    · rw [hc2, hposcount]
      simp
  | nil =>
    have hneg : negative_literals clause ≠ [] := by
      rcases hor with h | h
      · exact absurd hp h
      · exact h
    cases hq : negative_literals clause with
    | nil => exact absurd hq hneg
    | cons q qrest =>
      have hqmem : q ∈ negative_literals clause := by
        rw [hq]
        exact List.mem_cons_self q qrest
      obtain ⟨hqlt, hqneg2, hqsol, hqd⟩ := hnegf q hqmem
      obtain ⟨hqget, hqneg3⟩ := mem_negative_literals.mp hqmem
      obtain ⟨hqlt', hqelem⟩ := List.getElem?_eq_some.mp hqget
      have hcount0 : (clause.filter (fun lit => 0 < lit)).length = 0 := by
        rw [hcount, hp]
        rfl
      have hsatset : is_clause_satisfied (clause.set q.1 (-q.2)) sol = true :=
        is_clause_satisfied_set hqlt (by rw [Int.natAbs_neg, hqsol, hqd])
      have hc2 : flip_pass sol true (q :: qrest)
          (flip_pass sol false [] clause) = clause.set q.1 (-q.2) := by
        rw [flip_pass_nil, flip_pass_cons, if_pos (by rw [hunsat, hqsol]; simp),
          flip_pass_of_sat _ _ _ _ hsatset]
      have hposcount : ((clause.set q.1 (-q.2)).filter
          (fun lit => 0 < lit)).length = 1 := by
        rw [← List.countP_eq_length_filter,
          List.countP_set (fun lit => decide (0 < lit)) clause q.1 (-q.2) hqlt,
          List.countP_eq_length_filter, hqelem,
          decide_eq_false (by omega : ¬ (0 : Int) < q.2), hqd, hcount0]
        decide
      refine ⟨q, rfl, ?_, hsatset, ?_, ?_⟩
      · rw [hc2, fst_ite_pair]
      · rw [hc2, fst_ite_pair, hposcount]
      · rw [hc2, hposcount]
        simp

/-- Witness for C5: clause `[-1]` under the all-true assignment with
`current = target = 0` — the single (negative) literal is the first flip,
yielding the satisfied Horn clause `[1]` and an unchanged tracker. -/
theorem repair_le_branch_first_flip_witness :
    ∃ p : Nat × Int,
      (positive_literals [-1] ++ negative_literals [-1]).head? = some p ∧
      (repair_clause sol_all_true 0 0 [-1]).1 = ([-1] : List Int).set p.1 (-p.2) ∧
      is_clause_satisfied (([-1] : List Int).set p.1 (-p.2)) sol_all_true = true ∧
      ((repair_clause sol_all_true 0 0 [-1]).1.filter (fun lit => 0 < lit)).length ≤ 1 ∧
      (repair_clause sol_all_true 0 0 [-1]).2 = 0 :=
  repair_le_branch_first_flip sol_all_true 0 0 [-1]
    ⟨-1, by decide, by decide⟩ (by decide) (by decide) (by decide)

/-- C4 (amended): in the `current > target` branches the repairer first runs
the UNGUARDED negative-literal pass — it flips every negative literal whose
variable is assigned true, with no satisfaction check, so it can keep
flipping after the clause is already satisfied — and only then the
satisfaction-guarded positive-literal pass, which never flips a clause that
is already satisfied. -/
theorem repair_gt_branch_structure (sol : Nat → Bool) (t hc : Int)
    (clause : List Int) (hgt : t < hc)
    (hunsat : is_clause_satisfied clause sol = false) :
    (repair_clause sol t hc clause).1
      = flip_pass sol false (positive_literals clause)
          (flip_neg_all sol (negative_literals clause) clause) ∧
    ∀ c' : List Int, is_clause_satisfied c' sol = true →
      flip_pass sol false (positive_literals clause) c' = c' := by
  have hsat' : ¬ is_clause_satisfied clause sol = true := by
    rw [hunsat]
    simp
  have hct : ¬ hc ≤ t := by omega
  constructor
  · simp only [repair_clause, if_neg hsat', if_neg hct]
    by_cases hlen : 1 < (positive_literals clause).length
    · rw [if_pos hlen, fst_ite_pair]
    · rw [if_neg hlen, if_pos (by rw [hunsat]; rfl), fst_ite_pair]
  · intro c' hs
    exact flip_pass_of_sat sol false _ c' hs

/-- Witness for the amended C4 at the concrete input `[-1, -2]` under the
all-true assignment with `current = 1 > target = 0`. -/
theorem repair_gt_branch_structure_witness :
    (repair_clause sol_all_true 0 1 [-1, -2]).1
      = flip_pass sol_all_true false (positive_literals [-1, -2])
          (flip_neg_all sol_all_true (negative_literals [-1, -2]) [-1, -2]) ∧
    ∀ c' : List Int, is_clause_satisfied c' sol_all_true = true →
      flip_pass sol_all_true false (positive_literals [-1, -2]) c' = c' :=
  repair_gt_branch_structure sol_all_true 0 1 [-1, -2] (by decide) (by decide)

/-- C4 counterexample: on the clause `[-1, -2]` under the all-true
assignment with `current = 1 > target = 0`, the unguarded negative pass
first produces `[1, -2]`, which is already satisfied, and still flips the
second literal, ending at `[1, 2]`; the spec-worded variant whose passes
both stop at satisfaction would stop at `[1, -2]`, so the claim's "performs
no further flips on a clause once it is already satisfied" is false of the
code. -/
theorem repair_gt_flips_after_satisfied :
    (repair_clause sol_all_true 0 1 [-1, -2]).1 = [1, 2] ∧
    flip_neg_all sol_all_true (negative_literals [-1, -2]) [-1, -2] = [1, 2] ∧
    is_clause_satisfied [1, -2] sol_all_true = true ∧
    repair_gt_spec sol_all_true [-1, -2] = [1, -2] ∧
    (repair_clause sol_all_true 0 1 [-1, -2]).1 ≠ repair_gt_spec sol_all_true [-1, -2] := by
  decide

end Horn
